import Mathlib

/-!
Verification of `generate_mapping.py`: a static analyzer that collects every
function/method definition of a Python project together with per-module import
tables, resolves bare call names to qualified definitions, and renders the
resulting call graph.  The definitions below are a shallow embedding of the
source: Python dicts become string-keyed association lists, Python sets become
`Finset String`, the parsed AST becomes the mutual inductive `PyExpr`/`Stmt`/
`FuncDef`, and a source file is its path together with its parse outcome.
-/

set_option autoImplicit false
set_option linter.unusedVariables false

namespace PyMap

/-- A Python `dict` with string keys: an association list whose `insert`
overwrites any existing binding for the key (so the later binding wins). -/
abbrev Dict (α : Type) : Type := List (String × α)

namespace Dict

/-- Lookup `d[k]`, `None` when absent. -/
def find? {α : Type} : Dict α → String → Option α
  | [], _ => none
  | p :: d, k => if p.1 = k then some p.2 else find? d k

/-- Assignment `d[k] = v`: remove any previous binding of `k`, append the
new one, so the later binding wins. -/
def insert {α : Type} (d : Dict α) (k : String) (v : α) : Dict α :=
  d.filter (fun p => !(p.1 == k)) ++ [(k, v)]

/-- Key list, `list(d.keys())`. -/
def keys {α : Type} (d : Dict α) : List String :=
  d.map (fun p => p.1)

/-- Key membership, `k in d`. -/
def contains {α : Type} : Dict α → String → Bool
  | [], _ => false
  | p :: d, k => p.1 == k || contains d k

end Dict

/-- An `ast.alias` node of an import statement: the imported name and the
optional `as` rename. -/
structure ImpAlias where
  name : String
  asname : Option String
deriving DecidableEq, Repr

/-- An `ast.arg` node: the argument name and, when present, the text of its
type hint (the embedding stores the `ast.unparse` text of the node). -/
structure PyArg where
  arg : String
  annot : Option String
deriving DecidableEq, Repr

mutual

/-- Python expressions, restricted to the shapes the analyzer inspects:
`ast.Name`, `ast.Attribute`, `ast.Call`, `ast.Subscript`, `ast.Lambda` and an
opaque constant covering every other expression kind. -/
inductive PyExpr : Type where
  | name (id : String)
  | attr (value : PyExpr) (a : String)
  | call (func : PyExpr) (args : List PyExpr)
  | subscript (value : PyExpr) (idx : PyExpr)
  | lam (body : PyExpr)
  | const

/-- Python statements, restricted to the shapes the analyzer inspects:
`ast.FunctionDef`/`ast.AsyncFunctionDef`, `ast.ClassDef`, `ast.Import`,
`ast.ImportFrom`, plus expression statements and `return`. -/
inductive Stmt : Type where
  | functionDef (fd : FuncDef)
  | classDef (cname : String) (cbody : List Stmt)
  | importStmt (names : List ImpAlias)
  | importFrom (mod : Option String) (names : List ImpAlias)
  | exprStmt (e : PyExpr)
  | ret (e : Option PyExpr)

/-- An `ast.FunctionDef` node: name, positional arguments, optional return
annotation text, and the statement list of the body. -/
inductive FuncDef : Type where
  | mk (fname : String) (fargs : List PyArg) (freturns : Option String) (fbody : List Stmt)

end

def FuncDef.name : FuncDef → String
  | .mk n _ _ _ => n

def FuncDef.args : FuncDef → List PyArg
  | .mk _ a _ _ => a

def FuncDef.returns : FuncDef → Option String
  | .mk _ _ r _ => r

def FuncDef.body : FuncDef → List Stmt
  | .mk _ _ _ b => b

mutual

/-- All expression nodes reachable from an expression (`ast.walk` restricted
to expressions, which is all the call-graph builder filters on). -/
def walkExpr : PyExpr → List PyExpr
  | .name i => [.name i]
  | .attr v a => .attr v a :: walkExpr v
  | .call f args => .call f args :: (walkExpr f ++ walkExprList args)
  | .subscript v i => .subscript v i :: (walkExpr v ++ walkExpr i)
  | .lam b => .lam b :: walkExpr b
  | .const => [.const]

def walkExprList : List PyExpr → List PyExpr
  | [] => []
  | e :: es => walkExpr e ++ walkExprList es

def walkStmt : Stmt → List PyExpr
  | .functionDef fd => walkFuncDef fd
  | .classDef _ cbody => walkStmtList cbody
  | .importStmt _ => []
  | .importFrom _ _ => []
  | .exprStmt e => walkExpr e
  | .ret none => []
  | .ret (some e) => walkExpr e

def walkStmtList : List Stmt → List PyExpr
  | [] => []
  | s :: ss => walkStmt s ++ walkStmtList ss

/-- Restriction of `ast.walk(node)` for a `FunctionDef` node to the expression
nodes of its body (the only nodes the builder's `isinstance(_, ast.Call)`
filter can select). -/
def walkFuncDef : FuncDef → List PyExpr
  | .mk _ _ _ body => walkStmtList body

end

/-- Python `s.split(sep)` for a one-character separator, by structural
recursion over the character list: splitting never yields an empty list, the
empty string splits to `[""]`, and adjacent separators yield empty pieces. -/
def splitChars (sep : Char) : List Char → List (List Char)
  | [] => [[]]
  | c :: cs =>
    match splitChars sep cs with
    | [] => [[]]
    | w :: ws => if c = sep then [] :: w :: ws else (c :: w) :: ws

/-- Python `s.split(sep)` on strings. -/
def strSplit (s : String) (sep : Char) : List String :=
  (splitChars sep s.data).map String.mk

/-- Python `s.startswith(pre)`. -/
def strStartsWith (s pre : String) : Bool :=
  pre.data.isPrefixOf s.data

/-- Python `s.endswith(suff)`. -/
def strEndsWith (s suff : String) : Bool :=
  suff.data.isSuffixOf s.data

/-- Embeds `get_arg_type` (generate_mapping.py:13-16): the declared type text,
`"Any"` when the argument carries no type hint. -/
def get_arg_type (a : PyArg) : String :=
  match a.annot with
  | some t => t
  | none => "Any"

/-- Embeds `get_return_type` (generate_mapping.py:18-21). -/
def get_return_type (nd : FuncDef) : String :=
  match nd.returns with
  | some t => t
  | none => "Any"

/-- Embeds `get_module_name` (generate_mapping.py:23-30), over the
root-relative path (the direct output of `os.path.relpath(file_path, root)`,
with `/` as the path separator). -/
def get_module_name (rel : String) : String :=
  let parts := strSplit rel '/'
  let parts :=
    if strEndsWith (parts.getLastD "") ".py"
    then parts.dropLast ++ [(parts.getLastD "").dropRight 3]
    else parts
  let parts :=
    if parts.getLastD "" == "__init__"
    then parts.dropLast
    else parts
  String.intercalate "." parts

/-- A value of the `all_functions` registry: the defining file's
root-relative path, the `FunctionDef` node, and the enclosing class name
(`None` for top-level functions). -/
abbrev FuncInfo : Type := String × FuncDef × Option String

/-- An input file: its root-relative path together with the outcome of
`ast.parse` on its contents (`error` carries the exception text). -/
structure SrcFile where
  path : String
  parse : Except String (List Stmt)

/-- The state mutated by `collect_functions_and_imports`: the definition
registry, the per-module module-alias and symbol tables, and the sequence of
messages written through `logging.error`. -/
structure CollectResult where
  all_functions : Dict FuncInfo
  module_imports : Dict (Dict String)
  symbol_imports : Dict (Dict (Option String × String))
  log : List String

/-- Embeds the body of the `for node in tree.body` loop of
`collect_functions_and_imports` (generate_mapping.py:55-74) for one top-level
statement. -/
def collectStmt (module path : String) (st : CollectResult) : Stmt → CollectResult
  | .functionDef fd =>
      { st with all_functions :=
          st.all_functions.insert (module ++ "." ++ fd.name) (path, fd, none) }
  | .classDef cname cbody =>
      { st with all_functions := cbody.foldl (fun af item =>
          match item with
          | .functionDef fd =>
              af.insert (module ++ "." ++ cname ++ "." ++ fd.name) (path, fd, some cname)
          | _ => af) st.all_functions }
  | .importStmt names =>
      let inner := (st.module_imports.find? module).getD []
      let inner := names.foldl (fun t a => t.insert (a.asname.getD a.name) a.name) inner
      { st with module_imports := st.module_imports.insert module inner }
  | .importFrom mod names =>
      let inner := (st.symbol_imports.find? module).getD []
      let inner := names.foldl (fun t a => t.insert (a.asname.getD a.name) (mod, a.name)) inner
      { st with symbol_imports := st.symbol_imports.insert module inner }
  | _ => st

/-- Embeds one iteration of the `for file_path in py_files` loop of
`collect_functions_and_imports` (generate_mapping.py:44-74): the import
tables of the module are initialised to empty dicts before the parse is
attempted; a parse failure logs an error and skips the file. -/
def collectFile (st : CollectResult) (file : SrcFile) : CollectResult :=
  let module := get_module_name file.path
  let st := { st with
    module_imports := st.module_imports.insert module [],
    symbol_imports := st.symbol_imports.insert module [] }
  match file.parse with
  | .error e =>
      { st with log := st.log ++ ["Failed to parse " ++ file.path ++ ": " ++ e] }
  | .ok body => body.foldl (collectStmt module file.path) st

/-- Embeds `collect_functions_and_imports` (generate_mapping.py:34-75). -/
def collect_functions_and_imports (py_files : List SrcFile) : CollectResult :=
  py_files.foldl collectFile ⟨[], [], [], []⟩

/-- Final dotted-name segment, `qname.split(".")[-1]`. -/
def lastSeg (s : String) : String :=
  (strSplit s '.').getLastD ""

/-- Embeds the `symbol_to_func` reverse index of `build_function_call_graph`
(generate_mapping.py:83-86): maps each final name segment to the set of
registered qualified names ending in it. -/
def build_symbol_to_func (all_functions : Dict FuncInfo) : Dict (Finset String) :=
  all_functions.keys.foldl (fun d qname =>
    let short := lastSeg qname
    d.insert short (insert qname ((d.find? short).getD ∅))) []

/-- Embeds `resolve_function_name` (generate_mapping.py:120-145): local scope
first, then symbol imports, then the global reverse index; module-alias
qualified calls are explicitly not handled. -/
def resolve_function_name (name current_module : String)
    (module_imports : Dict (Dict String))
    (symbol_imports : Dict (Dict (Option String × String)))
    (all_functions : Dict FuncInfo)
    (symbol_to_func : Dict (Finset String)) : Option (Finset String) :=
  let possible := (all_functions.keys.filter
      (fun c => strStartsWith c (current_module ++ ".") && lastSeg c == name)).toFinset
  if possible ≠ ∅ then some possible
  else
    let step2 : Option (Finset String) :=
      match ((symbol_imports.find? current_module).getD []).find? name with
      | some (from_mod, orig_name) =>
          let resolved := (all_functions.keys.filter
              (fun k => strEndsWith k ("." ++ orig_name) && strStartsWith k (from_mod.getD ""))).toFinset
          if resolved ≠ ∅ then some resolved else none
      | none => none
    match step2 with
    | some r => some r
    | none =>
        match symbol_to_func.find? name with
        | some s => some s
        | none => none

/-- Embeds lines 100-107 of `build_function_call_graph`: the bare callee name
of a call expression — the identifier for `name(...)`, the attribute for
`receiver.attr(...)` with a plain identifier receiver, nothing otherwise (and
nothing for a non-call node, which the `isinstance` check filters out). -/
def getCallName : PyExpr → Option String
  | .call (.name i) _ => some i
  | .call (.attr (.name _) a) _ => some a
  | _ => none

/-- The per-definition record produced by `build_function_call_graph`:
argument name/type pairs, return type text, and the set of resolved
project-local call targets. -/
structure FuncDetails where
  args : List (String × String)
  ret : String
  calls : Finset String
deriving DecidableEq

/-- Embeds lines 98-112 of `build_function_call_graph` for one walked node:
extract the bare callee name; Python truthiness skips `None` and the empty
string; keep a resolution only when it is non-empty and intersects the
registry, adding exactly the registered names. -/
def collectCallStep (all_functions : Dict FuncInfo)
    (module_imports : Dict (Dict String))
    (symbol_imports : Dict (Dict (Option String × String)))
    (symbol_to_func : Dict (Finset String)) (module : String)
    (called : Finset String) (call_node : PyExpr) : Finset String :=
  match getCallName call_node with
  | some nm =>
      if nm = "" then called
      else
        match resolve_function_name nm module module_imports symbol_imports
            all_functions symbol_to_func with
        | some resolved =>
            if resolved ≠ ∅ ∧ resolved.filter (fun r => all_functions.contains r = true) ≠ ∅ then
              called ∪ resolved.filter (fun r => all_functions.contains r = true)
            else called
        | none => called
  | none => called

/-- Embeds the per-definition body of `build_function_call_graph`
(generate_mapping.py:90-117): arguments with `get_arg_type`, return type, and
the call-edge set folded over the walked body. -/
def detailsFor (all_functions : Dict FuncInfo)
    (module_imports : Dict (Dict String))
    (symbol_imports : Dict (Dict (Option String × String)))
    (symbol_to_func : Dict (Finset String)) (info : FuncInfo) : FuncDetails :=
  let file_path := info.1
  let node := info.2.1
  let args := node.args.map (fun a => (a.arg, get_arg_type a))
  let return_type := get_return_type node
  let module := get_module_name file_path
  let called := (walkFuncDef node).foldl
    (collectCallStep all_functions module_imports symbol_imports symbol_to_func module) ∅
  ⟨args, return_type, called⟩

/-- Embeds `build_function_call_graph` (generate_mapping.py:77-118).  A Python
dict iterated and re-keyed by its own keys is a per-entry map, so the loop
over `all_functions.items()` is `List.map` over the association list. -/
def build_function_call_graph (all_functions : Dict FuncInfo)
    (module_imports : Dict (Dict String))
    (symbol_imports : Dict (Dict (Option String × String))) : Dict FuncDetails :=
  let symbol_to_func := build_symbol_to_func all_functions
  all_functions.map (fun entry =>
    (entry.1, detailsFor all_functions module_imports symbol_imports symbol_to_func entry.2))

/-! ### Basic lemmas about `Dict` -/

theorem Dict.find?_append_single {α : Type} (d : Dict α) (k k' : String) (v : α) :
    Dict.find? (d ++ [(k, v)]) k' =
      (match Dict.find? d k' with
      | some w => some w
      | none => if k = k' then some v else none) := by
  induction d with
  | nil => simp [Dict.find?]
  | cons hd tl ih =>
    by_cases h : hd.1 = k'
    · simp [Dict.find?, h]
    · simp only [List.cons_append, Dict.find?, h, if_false]
      exact ih

theorem Dict.find?_filter_ne {α : Type} (d : Dict α) (k k' : String) (h : k' ≠ k) :
    Dict.find? (d.filter (fun p => !(p.1 == k))) k' = Dict.find? d k' := by
  induction d with
  | nil => rfl
  | cons hd tl ih =>
    by_cases hk : hd.1 = k
    · simp [List.filter_cons, hk, Dict.find?, Ne.symm h, ih]
    · by_cases hkk : hd.1 = k'
      · simp [List.filter_cons, hk, Dict.find?, hkk, h]
      · simp [List.filter_cons, hk, Dict.find?, hkk, h, ih]

theorem Dict.find?_filter_self {α : Type} (d : Dict α) (k : String) :
    Dict.find? (d.filter (fun p => !(p.1 == k))) k = none := by
  induction d with
  | nil => rfl
  | cons hd tl ih =>
    by_cases hk : hd.1 = k
    · simpa [List.filter_cons, hk] using ih
    · simpa [List.filter_cons, hk, Dict.find?] using ih

theorem Dict.find?_insert_self {α : Type} (d : Dict α) (k : String) (v : α) :
    Dict.find? (Dict.insert d k v) k = some v := by
  unfold Dict.insert
  rw [Dict.find?_append_single, Dict.find?_filter_self]
  simp

theorem Dict.find?_insert_ne {α : Type} (d : Dict α) (k k' : String) (v : α) (h : k' ≠ k) :
    Dict.find? (Dict.insert d k v) k' = Dict.find? d k' := by
  unfold Dict.insert
  rw [Dict.find?_append_single, Dict.find?_filter_ne d k k' h]
  cases hf : Dict.find? d k' <;> simp [Ne.symm h]

theorem Dict.contains_filter_ne {α : Type} (d : Dict α) (k k' : String) (h : k' ≠ k) :
    Dict.contains (d.filter (fun p => !(p.1 == k))) k' = Dict.contains d k' := by
  induction d with
  | nil => rfl
  | cons hd tl ih =>
    by_cases hk : hd.1 = k
    · simp [List.filter_cons, hk, Dict.contains, Ne.symm h, ih]
    · simp [List.filter_cons, hk, Dict.contains, ih]

theorem Dict.contains_append {α : Type} (d d' : Dict α) (k : String) :
    Dict.contains (d ++ d') k = (Dict.contains d k || Dict.contains d' k) := by
  induction d with
  | nil => simp [Dict.contains]
  | cons hd tl ih => simp [Dict.contains, ih, Bool.or_assoc]

theorem Dict.contains_insert {α : Type} (d : Dict α) (k k' : String) (v : α) :
    Dict.contains (Dict.insert d k v) k' = (k == k' || Dict.contains d k') := by
  unfold Dict.insert
  rw [Dict.contains_append]
  by_cases h : k = k'
  · simp [h, Dict.contains]
  · rw [Dict.contains_filter_ne d k k' (Ne.symm h)]
    simp [Dict.contains, h, Bool.or_comm]

theorem Dict.mem_insert {α : Type} {d : Dict α} {k : String} {v : α} {x : String × α}
    (h : x ∈ Dict.insert d k v) : x ∈ d ∨ x = (k, v) := by
  unfold Dict.insert at h
  rcases List.mem_append.mp h with h | h
  · exact Or.inl (List.mem_filter.mp h).1
  · exact Or.inr (by simpa using h)

theorem Dict.mem_of_find?_eq_some {α : Type} {d : Dict α} {k : String} {v : α}
    (h : Dict.find? d k = some v) : (k, v) ∈ d := by
  induction d with
  | nil => simp [Dict.find?] at h
  | cons hd tl ih =>
    obtain ⟨a, b⟩ := hd
    unfold Dict.find? at h
    by_cases hk : a = k
    · subst hk
      simp only [if_pos rfl] at h
      have hb : b = v := by
        simpa using h
      subst hb
      exact List.mem_cons_self _ _
    · rw [if_neg hk] at h
      exact List.mem_cons_of_mem _ (ih h)

theorem Dict.contains_eq_true_of_mem {α : Type} {d : Dict α} {k : String} {v : α}
    (h : (k, v) ∈ d) : Dict.contains d k = true := by
  induction d with
  | nil => simp at h
  | cons hd tl ih =>
    unfold Dict.contains
    rcases List.mem_cons.mp h with h | h
    · simp [← h]
    · simp [ih h]

theorem Dict.exists_mem_of_contains {α : Type} {d : Dict α} {k : String}
    (h : Dict.contains d k = true) : ∃ v, (k, v) ∈ d := by
  induction d with
  | nil => simp [Dict.contains] at h
  | cons hd tl ih =>
    obtain ⟨a, b⟩ := hd
    unfold Dict.contains at h
    rcases Bool.or_eq_true_iff.mp h with h | h
    · have ha : a = k := by simpa using h
      subst ha
      exact ⟨b, List.mem_cons_self _ _⟩
    · rcases ih h with ⟨v, hv⟩
      exact ⟨v, List.mem_cons_of_mem _ hv⟩

theorem Dict.keys_map_fst {α β : Type} (d : Dict α) (f : String → α → β) :
    Dict.keys (List.map (fun e => (e.1, f e.1 e.2)) d) = Dict.keys d := by
  unfold Dict.keys
  rw [List.map_map]
  rfl

theorem Dict.find?_map_of_nodup {α β : Type} (f : String → α → β) (d : Dict α)
    (q : String) (info : α) (hnd : (Dict.keys d).Nodup) (h : (q, info) ∈ d) :
    Dict.find? (List.map (fun e => (e.1, f e.1 e.2)) d) q = some (f q info) := by
  induction d with
  | nil => simp at h
  | cons hd tl ih =>
    rcases List.mem_cons.mp h with h | h
    · rw [← h]
      simp [Dict.find?]
    · have hne : hd.1 ≠ q := by
        intro hc
        have hq : q ∈ List.map (fun p : String × α => p.1) tl :=
          List.mem_map.mpr ⟨(q, info), h, rfl⟩
        unfold Dict.keys at hnd
        rw [List.map_cons, List.nodup_cons] at hnd
        exact hnd.1 (hc ▸ hq)
      have hnd' : (Dict.keys tl).Nodup := by
        unfold Dict.keys at hnd ⊢
        rw [List.map_cons, List.nodup_cons] at hnd
        exact hnd.2
      simpa [Dict.find?, hne] using ih hnd' h

theorem Dict.find?_eq_some_of_map {α β : Type} (f : String → α → β) (d : Dict α)
    (q : String) (y : β) (h : Dict.find? (List.map (fun e => (e.1, f e.1 e.2)) d) q = some y) :
    ∃ info, (q, info) ∈ d ∧ y = f q info := by
  induction d with
  | nil => simp [Dict.find?] at h
  | cons hd tl ih =>
    obtain ⟨a, b⟩ := hd
    simp only [List.map_cons, Dict.find?] at h
    by_cases hk : a = q
    · subst hk
      simp only [if_pos rfl] at h
      have hy : y = f a b := by simpa using h.symm
      exact ⟨b, List.mem_cons_self _ _, hy⟩
    · rw [if_neg hk] at h
      rcases ih h with ⟨info, hmem, hy⟩
      exact ⟨info, List.mem_cons_of_mem _ hmem, hy⟩

/-! ### Splitting never returns the empty list -/

theorem splitChars_ne_nil (sep : Char) (l : List Char) : splitChars sep l ≠ [] := by
  cases l with
  | nil => simp [splitChars]
  | cons c cs =>
    unfold splitChars
    cases splitChars sep cs with
    | nil => simp
    | cons w ws =>
      by_cases h : c = sep <;> simp [h]

theorem strSplit_ne_nil (s : String) (sep : Char) : strSplit s sep ≠ [] := by
  unfold strSplit
  intro hc
  exact splitChars_ne_nil sep s.data (List.map_eq_nil_iff.mp hc)

theorem dropLast_append_getLastD {α : Type} (l : List α) (d : α) (h : l ≠ []) :
    l.dropLast ++ [l.getLastD d] = l := by
  have h1 := List.dropLast_concat_getLast h
  rw [List.getLastD_eq_getLast?, List.getLast?_eq_getLast l h]
  simpa using h1

/-! ### C9: module naming -/

/-- Modelled from the claim's wording: the root-relative path is split into
segments, the `.py` suffix is stripped from the last segment, a final
`__init__` segment is dropped entirely, and the remaining segments are joined
with `.`. -/
def moduleNameSpec (rel : String) : String :=
  let segs := strSplit rel '/'
  let last := segs.getLastD ""
  let segs := segs.dropLast ++ [if strEndsWith last ".py" then last.dropRight 3 else last]
  let segs := if segs.getLastD "" = "__init__" then segs.dropLast else segs
  String.intercalate "." segs

/-- C9 — Module naming: for every root-relative path the derived module name
is the path split into segments with the `.py` suffix stripped from the last
segment, a final `__init__` segment dropped entirely, and the rest joined
with `.` (`get_module_name` is a total function, so it never fails); and the
initializer file at the root itself yields the empty name. -/
theorem module_naming :
    (∀ rel : String, get_module_name rel = moduleNameSpec rel)
    ∧ get_module_name "__init__.py" = "" := by
  constructor
  · intro rel
    unfold get_module_name moduleNameSpec
    have hne : strSplit rel '/' ≠ [] := strSplit_ne_nil rel '/'
    cases h : strEndsWith ((strSplit rel '/').getLastD "") ".py" with
    | true => simp only [h, if_true, beq_iff_eq]
    | false =>
      simp only [h, Bool.false_eq_true, if_false, beq_iff_eq]
      rw [dropLast_append_getLastD _ "" hne]
  · rfl

/-! ### C1: resolver precedence -/

/-- C1 — Resolver precedence: for every definition registry, import tables
and reverse index, and every bare name and calling module such that some
registered qualified name starts with the calling module followed by `.` and
has final segment equal to the bare name, `resolve_function_name` returns
exactly the set of those local-scope matches — so a symbol-import or
global-fallback result is never returned. -/
theorem resolver_local_precedence
    (module_imports : Dict (Dict String))
    (symbol_imports : Dict (Dict (Option String × String)))
    (all_functions : Dict FuncInfo) (symbol_to_func : Dict (Finset String))
    (name current_module k : String)
    (hk : k ∈ Dict.keys all_functions)
    (hpre : strStartsWith k (current_module ++ ".") = true)
    (hlast : lastSeg k = name) :
    resolve_function_name name current_module module_imports symbol_imports
        all_functions symbol_to_func
      = some (((Dict.keys all_functions).filter
          (fun c => strStartsWith c (current_module ++ ".") && lastSeg c == name)).toFinset)
    ∧ ∀ q, q ∈ ((Dict.keys all_functions).filter
          (fun c => strStartsWith c (current_module ++ ".") && lastSeg c == name)).toFinset ↔
        (q ∈ Dict.keys all_functions ∧ strStartsWith q (current_module ++ ".") = true
          ∧ lastSeg q = name) := by
  have hmem : k ∈ (Dict.keys all_functions).filter
      (fun c => strStartsWith c (current_module ++ ".") && lastSeg c == name) :=
    List.mem_filter.mpr ⟨hk, by simp [hpre, hlast]⟩
  constructor
  · simp only [resolve_function_name]
    rw [if_pos (Finset.ne_empty_of_mem (List.mem_toFinset.mpr hmem))]
  · intro q
    rw [List.mem_toFinset, List.mem_filter]
    simp

/-- The registry of the claim's scenario: modules `a` and `b` both define
`helper`. -/
def exHelperReg : Dict FuncInfo :=
  [("a.helper", ("a.py", FuncDef.mk "helper" [] none [], none)),
   ("b.helper", ("b.py", FuncDef.mk "helper" [] none [], none))]

theorem resolver_local_precedence_witness :
    resolve_function_name "helper" "a" [] [] exHelperReg []
      = some ({"a.helper"} : Finset String) := by
  have h := resolver_local_precedence [] [] exHelperReg [] "helper" "a" "a.helper"
    (by decide) (by decide) (by decide)
  rw [h.1]
  decide

/-! ### C2: closed-world call edges -/

theorem mem_collectCallStep {all_functions : Dict FuncInfo}
    {module_imports : Dict (Dict String)}
    {symbol_imports : Dict (Dict (Option String × String))}
    {symbol_to_func : Dict (Finset String)} {m : String}
    {acc : Finset String} {e : PyExpr} {x : String}
    (h : x ∈ collectCallStep all_functions module_imports symbol_imports symbol_to_func m acc e) :
    x ∈ acc ∨ Dict.contains all_functions x = true := by
  unfold collectCallStep at h
  repeat' split at h
  all_goals first
    | exact Or.inl h
    | (rcases Finset.mem_union.mp h with h | h
       · exact Or.inl h
       · exact Or.inr (Finset.mem_filter.mp h).2)

theorem mem_foldl_collectCallStep {all_functions : Dict FuncInfo}
    {module_imports : Dict (Dict String)}
    {symbol_imports : Dict (Dict (Option String × String))}
    {symbol_to_func : Dict (Finset String)} {m : String}
    (l : List PyExpr) (acc : Finset String) (x : String)
    (h : x ∈ l.foldl (collectCallStep all_functions module_imports symbol_imports
        symbol_to_func m) acc) :
    x ∈ acc ∨ Dict.contains all_functions x = true := by
  induction l generalizing acc with
  | nil => exact Or.inl h
  | cons e es ih =>
    rcases ih _ h with hx | hx
    · exact mem_collectCallStep hx
    · exact Or.inr hx

/-- A module `m` whose function `h` calls `tgt()` twice. -/
def exDedupFiles : List SrcFile :=
  [⟨"m.py", .ok
      [.functionDef (.mk "h" [] none
        [.exprStmt (.call (.name "tgt") []), .exprStmt (.call (.name "tgt") [])]),
       .functionDef (.mk "tgt" [] none [])]⟩]

/-- The registry collected from `exDedupFiles`. -/
def exDedupAf : Dict FuncInfo :=
  (collect_functions_and_imports exDedupFiles).all_functions

/-- C2 — Closed-world call edges: every element of any definition's call-edge
set is a key of the definition registry (so a call resolving only to names
absent from the registry contributes no edge), and the edge set is a
deduplicated set: in the concrete scenario where `m.h` calls `tgt()` twice,
the computed edge set is exactly the one-element set `{m.tgt}`. -/
theorem call_edges_closed_world :
    (∀ (all_functions : Dict FuncInfo) (module_imports : Dict (Dict String))
        (symbol_imports : Dict (Dict (Option String × String))) (q : String) (d : FuncDetails),
      Dict.find? (build_function_call_graph all_functions module_imports symbol_imports) q
        = some d →
      ∀ x ∈ d.calls, Dict.contains all_functions x = true)
    ∧ (Dict.find? (build_function_call_graph exDedupAf [] []) "m.h").map (fun d => d.calls)
        = some ({"m.tgt"} : Finset String)
    ∧ ({"m.tgt"} : Finset String).card = 1 := by
  refine ⟨?_, by decide, by decide⟩
  intro all_functions module_imports symbol_imports q d hfind x hx
  simp only [build_function_call_graph] at hfind
  obtain ⟨info, hmem, hd⟩ := Dict.find?_eq_some_of_map
    (fun _ info => detailsFor all_functions module_imports symbol_imports
      (build_symbol_to_func all_functions) info) _ _ _ hfind
  rw [hd] at hx
  simp only [detailsFor] at hx
  rcases mem_foldl_collectCallStep _ _ _ hx with hc | hc
  · simp at hc
  · exact hc

theorem call_edges_closed_world_witness :
    Dict.contains exDedupAf "m.tgt" = true :=
  call_edges_closed_world.1 exDedupAf [] [] "m.h"
    ⟨[], "Any", {"m.tgt"}⟩ (by decide) "m.tgt" (by decide)

/-! ### The collector as a sequence of registry insertions -/

/-- The registry insertions performed by `collectStmt` for one top-level
statement, in processing order. -/
def stmtRegs (module path : String) : Stmt → List (String × FuncInfo)
  | .functionDef fd => [(module ++ "." ++ fd.name, (path, fd, none))]
  | .classDef cname cbody => cbody.filterMap (fun item =>
      match item with
      | .functionDef fd =>
          some (module ++ "." ++ cname ++ "." ++ fd.name, (path, fd, some cname))
      | _ => none)
  | _ => []

/-- The registry insertions performed while processing one file: none when
the parse fails. -/
def fileRegs (file : SrcFile) : List (String × FuncInfo) :=
  match file.parse with
  | .error _ => []
  | .ok body => body.flatMap (stmtRegs (get_module_name file.path) file.path)

/-- All registry insertions of a run, in processing order. -/
def allRegs (files : List SrcFile) : List (String × FuncInfo) :=
  files.flatMap fileRegs

/-- Fold a sequence of insertions into a dict. -/
def insertAll {α : Type} (d : Dict α) (regs : List (String × α)) : Dict α :=
  regs.foldl (fun d p => Dict.insert d p.1 p.2) d

/-- The error lines logged by a run: one per parse failure. -/
def allLogs (files : List SrcFile) : List String :=
  files.flatMap (fun f => match f.parse with
    | .error e => ["Failed to parse " ++ f.path ++ ": " ++ e]
    | .ok _ => [])

theorem insertAll_append {α : Type} (d : Dict α) (r1 r2 : List (String × α)) :
    insertAll d (r1 ++ r2) = insertAll (insertAll d r1) r2 := by
  unfold insertAll
  exact List.foldl_append ..

theorem foldl_class_insert (m p cname : String) (cbody : List Stmt) (af : Dict FuncInfo) :
    cbody.foldl (fun af item =>
      match item with
      | Stmt.functionDef fd =>
          Dict.insert af (m ++ "." ++ cname ++ "." ++ fd.name) (p, fd, some cname)
      | _ => af) af
    = insertAll af (stmtRegs m p (.classDef cname cbody)) := by
  simp only [stmtRegs]
  induction cbody generalizing af with
  | nil => rfl
  | cons item rest ih =>
    cases item <;> simp only [List.foldl_cons, List.filterMap_cons] <;> exact ih _

theorem collectStmt_all_functions (m p : String) (st : CollectResult) (s : Stmt) :
    (collectStmt m p st s).all_functions = insertAll st.all_functions (stmtRegs m p s) := by
  cases s with
  | functionDef fd => rfl
  | classDef cname cbody => exact foldl_class_insert m p cname cbody st.all_functions
  | importStmt ns => rfl
  | importFrom mo ns => rfl
  | exprStmt e => rfl
  | ret e => rfl

theorem collectStmt_log (m p : String) (st : CollectResult) (s : Stmt) :
    (collectStmt m p st s).log = st.log := by
  cases s <;> rfl

theorem foldl_collectStmt_all_functions (m p : String) (body : List Stmt)
    (st : CollectResult) :
    (body.foldl (collectStmt m p) st).all_functions
      = insertAll st.all_functions (body.flatMap (stmtRegs m p)) := by
  induction body generalizing st with
  | nil => rfl
  | cons s rest ih =>
    simp only [List.foldl_cons, List.flatMap_cons, insertAll_append]
    rw [ih, collectStmt_all_functions]

theorem foldl_collectStmt_log (m p : String) (body : List Stmt) (st : CollectResult) :
    (body.foldl (collectStmt m p) st).log = st.log := by
  induction body generalizing st with
  | nil => rfl
  | cons s rest ih => rw [List.foldl_cons, ih, collectStmt_log]

theorem collectFile_all_functions (st : CollectResult) (file : SrcFile) :
    (collectFile st file).all_functions = insertAll st.all_functions (fileRegs file) := by
  unfold collectFile fileRegs
  cases file.parse with
  | error e => rfl
  | ok body => exact foldl_collectStmt_all_functions ..

theorem collectFile_log (st : CollectResult) (file : SrcFile) :
    (collectFile st file).log = st.log ++ (match file.parse with
      | .error e => ["Failed to parse " ++ file.path ++ ": " ++ e]
      | .ok _ => []) := by
  unfold collectFile
  cases file.parse with
  | error e => rfl
  | ok body => rw [foldl_collectStmt_log]; simp

theorem collect_all_functions (files : List SrcFile) :
    (collect_functions_and_imports files).all_functions = insertAll [] (allRegs files) := by
  unfold collect_functions_and_imports
  suffices h : ∀ st : CollectResult,
      (files.foldl collectFile st).all_functions = insertAll st.all_functions (allRegs files) by
    exact h ⟨[], [], [], []⟩
  induction files with
  | nil => intro st; rfl
  | cons f rest ih =>
    intro st
    simp only [List.foldl_cons, allRegs, List.flatMap_cons]
    rw [insertAll_append, ih, collectFile_all_functions]
    rfl

theorem collect_log (files : List SrcFile) :
    (collect_functions_and_imports files).log = allLogs files := by
  unfold collect_functions_and_imports
  suffices h : ∀ st : CollectResult,
      (files.foldl collectFile st).log = st.log ++ allLogs files by
    simpa using h ⟨[], [], [], []⟩
  induction files with
  | nil => intro st; simp [allLogs]
  | cons f rest ih =>
    intro st
    simp only [List.foldl_cons, allLogs, List.flatMap_cons]
    rw [ih, collectFile_log, List.append_assoc]
    rfl

theorem getLast?_cons_of_ne_nil {α : Type} (a : α) {l : List α} (h : l ≠ []) :
    (a :: l).getLast? = l.getLast? := by
  cases l with
  | nil => exact absurd rfl h
  | cons b t => exact List.getLast?_cons_cons

theorem find?_insertAll {α : Type} (regs : List (String × α)) (d : Dict α) (k : String) :
    Dict.find? (insertAll d regs) k =
      (match (regs.filter (fun p => p.1 == k)).getLast? with
      | some p => some p.2
      | none => Dict.find? d k) := by
  induction regs generalizing d with
  | nil => simp [insertAll]
  | cons hd rest ih =>
    have hstep : insertAll d (hd :: rest) = insertAll (Dict.insert d hd.1 hd.2) rest := rfl
    rw [hstep, ih]
    by_cases hk : hd.1 = k
    · cases hlast : (rest.filter (fun p => p.1 == k)).getLast? with
      | some p =>
        have hne : rest.filter (fun p => p.1 == k) ≠ [] := by
          intro hc; rw [hc] at hlast; simp at hlast
        simp [List.filter_cons, hk, getLast?_cons_of_ne_nil _ hne, hlast]
      | none =>
        have hnil : rest.filter (fun p => p.1 == k) = [] :=
          List.getLast?_eq_none_iff.mp hlast
        simp [List.filter_cons, hk, hnil, Dict.find?_insert_self]
    · simp [List.filter_cons, hk, Dict.find?_insert_ne d hd.1 k hd.2 (Ne.symm hk)]

theorem contains_insertAll {α : Type} (regs : List (String × α)) (d : Dict α) (k : String) :
    Dict.contains (insertAll d regs) k
      = (Dict.contains d k || regs.any (fun p => p.1 == k)) := by
  induction regs generalizing d with
  | nil => simp [insertAll]
  | cons hd rest ih =>
    have hstep : insertAll d (hd :: rest) = insertAll (Dict.insert d hd.1 hd.2) rest := rfl
    rw [hstep, ih, Dict.contains_insert]
    cases h : hd.1 == k <;> simp [h, Bool.or_comm, Bool.or_assoc]

theorem mem_insertAll {α : Type} {regs : List (String × α)} {d : Dict α} {x : String × α}
    (h : x ∈ insertAll d regs) : x ∈ d ∨ x ∈ regs := by
  induction regs generalizing d with
  | nil => exact Or.inl h
  | cons hd rest ih =>
    have hstep : insertAll d (hd :: rest) = insertAll (Dict.insert d hd.1 hd.2) rest := rfl
    rw [hstep] at h
    rcases ih h with h | h
    · rcases Dict.mem_insert h with h | h
      · exact Or.inl h
      · exact Or.inr (by simp [h])
    · exact Or.inr (List.mem_cons_of_mem _ h)

/-! ### C8: qualified-name collisions silently overwrite -/

/-- C8 — Collision overwrite: for every input list and qualified name, the
final registry binds the name to the value of the last registration that
produced it (so when two definitions produce the same qualified name, the
later-processed one silently overwrites the earlier), and every line the
collector ever logs is a parse-failure line — a collision is never logged or
reported. -/
theorem collision_overwrite :
    (∀ (files : List SrcFile) (k : String),
      Dict.find? (collect_functions_and_imports files).all_functions k =
        (match ((allRegs files).filter (fun p => p.1 == k)).getLast? with
        | some p => some p.2
        | none => none))
    ∧ (∀ (files : List SrcFile), ∀ l ∈ (collect_functions_and_imports files).log,
        ∃ p e, l = "Failed to parse " ++ p ++ ": " ++ e) := by
  constructor
  · intro files k
    rw [collect_all_functions, find?_insertAll]
    cases ((allRegs files).filter (fun p => p.1 == k)).getLast? <;> simp [Dict.find?]
  · intro files l hl
    rw [collect_log] at hl
    rcases List.mem_flatMap.mp hl with ⟨f, hf, hlf⟩
    cases hp : f.parse with
    | error e =>
      rw [hp] at hlf
      simp only [List.mem_singleton] at hlf
      exact ⟨f.path, e, hlf⟩
    | ok body => rw [hp] at hlf; simp at hlf

/-- Module `m` defines `f` twice (second definition wins); `bad.py` fails to
parse. -/
def exCollideFiles : List SrcFile :=
  [⟨"m.py", .ok
      [.functionDef (.mk "f" [⟨"a", none⟩] none []),
       .functionDef (.mk "f" [] (some "int") [])]⟩,
   ⟨"bad.py", .error "boom"⟩]

theorem collision_overwrite_witness :
    Dict.find? (collect_functions_and_imports exCollideFiles).all_functions "m.f"
      = some ("m.py", FuncDef.mk "f" [] (some "int") [], none)
    ∧ (∃ p e, "Failed to parse bad.py: boom" = "Failed to parse " ++ p ++ ": " ++ e) := by
  constructor
  · rw [collision_overwrite.1 exCollideFiles "m.f"]
    rfl
  · exact collision_overwrite.2 exCollideFiles _
      (by decide : ("Failed to parse bad.py: boom") ∈
        (collect_functions_and_imports exCollideFiles).log)

/-! ### C5: what collection registers -/

/-- C5 — Collection registration: for every successfully parsed file with
module name `mod`, every top-level function `f` is registered under `mod.f`
with no enclosing class and every method `m` directly inside a top-level
class `C` is registered under `mod.C.m` with enclosing class `C` (both keys
are present in the final registry); and the file's registrations consist of
exactly those two forms, so definitions nested inside function bodies, or
inside classes more than one level deep, are never registered. -/
theorem collection_registration (files : List SrcFile) (file : SrcFile)
    (hf : file ∈ files) (body : List Stmt) (hb : file.parse = .ok body) :
    (∀ fd : FuncDef, Stmt.functionDef fd ∈ body →
        (get_module_name file.path ++ "." ++ fd.name,
            (file.path, fd, (none : Option String))) ∈ allRegs files
      ∧ Dict.contains (collect_functions_and_imports files).all_functions
          (get_module_name file.path ++ "." ++ fd.name) = true)
    ∧ (∀ (cname : String) (cbody : List Stmt) (fd : FuncDef),
        Stmt.classDef cname cbody ∈ body → Stmt.functionDef fd ∈ cbody →
        (get_module_name file.path ++ "." ++ cname ++ "." ++ fd.name,
            (file.path, fd, some cname)) ∈ allRegs files
      ∧ Dict.contains (collect_functions_and_imports files).all_functions
          (get_module_name file.path ++ "." ++ cname ++ "." ++ fd.name) = true)
    ∧ (∀ (k : String) (v : FuncInfo), (k, v) ∈ fileRegs file ↔
        ((∃ fd : FuncDef, Stmt.functionDef fd ∈ body
            ∧ k = get_module_name file.path ++ "." ++ fd.name
            ∧ v = (file.path, fd, none))
        ∨ (∃ (cname : String) (cbody : List Stmt) (fd : FuncDef),
            Stmt.classDef cname cbody ∈ body ∧ Stmt.functionDef fd ∈ cbody
            ∧ k = get_module_name file.path ++ "." ++ cname ++ "." ++ fd.name
            ∧ v = (file.path, fd, some cname)))) := by
  have hfr : fileRegs file = body.flatMap (stmtRegs (get_module_name file.path) file.path) := by
    unfold fileRegs
    rw [hb]
  have hcontains : ∀ x : String × FuncInfo, x ∈ allRegs files →
      Dict.contains (collect_functions_and_imports files).all_functions x.1 = true := by
    intro x hx
    rw [collect_all_functions, contains_insertAll]
    refine Bool.or_eq_true_iff.mpr (Or.inr ?_)
    exact List.any_eq_true.mpr ⟨x, hx, by simp⟩
  refine ⟨?_, ?_, ?_⟩
  · intro fd hmem
    have hreg : (get_module_name file.path ++ "." ++ fd.name,
        (file.path, fd, (none : Option String))) ∈ fileRegs file := by
      rw [hfr]
      exact List.mem_flatMap.mpr ⟨Stmt.functionDef fd, hmem, by simp [stmtRegs]⟩
    have hall := List.mem_flatMap.mpr ⟨file, hf, hreg⟩
    exact ⟨hall, hcontains _ hall⟩
  · intro cname cbody fd hcmem hfmem
    have hreg : (get_module_name file.path ++ "." ++ cname ++ "." ++ fd.name,
        (file.path, fd, some cname)) ∈ fileRegs file := by
      rw [hfr]
      refine List.mem_flatMap.mpr ⟨Stmt.classDef cname cbody, hcmem, ?_⟩
      simp only [stmtRegs]
      exact List.mem_filterMap.mpr ⟨Stmt.functionDef fd, hfmem, by simp⟩
    have hall := List.mem_flatMap.mpr ⟨file, hf, hreg⟩
    exact ⟨hall, hcontains _ hall⟩
  · intro k v
    rw [hfr]
    rw [List.mem_flatMap]
    constructor
    · rintro ⟨s, hs, hks⟩
      cases s with
      | functionDef fd =>
        simp only [stmtRegs, List.mem_singleton, Prod.mk.injEq] at hks
        exact Or.inl ⟨fd, hs, hks.1, hks.2⟩
      | classDef cname cbody =>
        simp only [stmtRegs] at hks
        rcases List.mem_filterMap.mp hks with ⟨item, hitem, hsome⟩
        cases item with
        | functionDef fd =>
          simp only [Option.some.injEq, Prod.mk.injEq] at hsome
          exact Or.inr ⟨cname, cbody, fd, hs, hitem, hsome.1.symm, hsome.2.symm⟩
        | classDef c b => simp at hsome
        | importStmt ns => simp at hsome
        | importFrom mo ns => simp at hsome
        | exprStmt e => simp at hsome
        | ret e => simp at hsome
      | importStmt ns => simp [stmtRegs] at hks
      | importFrom mo ns => simp [stmtRegs] at hks
      | exprStmt e => simp [stmtRegs] at hks
      | ret e => simp [stmtRegs] at hks
    · rintro (⟨fd, hmem, hk, hv⟩ | ⟨cname, cbody, fd, hcmem, hfmem, hk, hv⟩)
      · exact ⟨Stmt.functionDef fd, hmem, by simp [stmtRegs, hk, hv]⟩
      · refine ⟨Stmt.classDef cname cbody, hcmem, ?_⟩
        simp only [stmtRegs]
        exact List.mem_filterMap.mpr ⟨Stmt.functionDef fd, hfmem, by simp [hk, hv]⟩

/-- A module `m` with a top-level function `foo` (containing a nested
definition), and a class `C` with method `meth`. -/
def exC5Files : List SrcFile :=
  [⟨"m.py", .ok
      [.functionDef (.mk "foo" [] none [.functionDef (.mk "inner" [] none [])]),
       .classDef "C" [.functionDef (.mk "meth" [] none [])]]⟩]

theorem collection_registration_witness :
    Dict.contains (collect_functions_and_imports exC5Files).all_functions "m.foo" = true
    ∧ Dict.contains (collect_functions_and_imports exC5Files).all_functions "m.C.meth" = true
    ∧ Dict.contains (collect_functions_and_imports exC5Files).all_functions "m.foo.inner"
        = false := by
  have h := collection_registration exC5Files
    ⟨"m.py", .ok
      [.functionDef (.mk "foo" [] none [.functionDef (.mk "inner" [] none [])]),
       .classDef "C" [.functionDef (.mk "meth" [] none [])]]⟩
    (List.mem_singleton.mpr rfl) _ rfl
  refine ⟨?_, ?_, by decide⟩
  · exact (h.1 (.mk "foo" [] none [.functionDef (.mk "inner" [] none [])])
      (List.mem_cons_self _ _)).2
  · exact (h.2.1 "C" [.functionDef (.mk "meth" [] none [])] (.mk "meth" [] none [])
      (List.mem_cons_of_mem _ (List.mem_cons_self _ _)) (List.mem_cons_self _ _)).2

/-! ### C7: parameter and return capture -/

/-- Module `m` defines `foo(x)` with no parameter or return annotation. -/
def exC7Files : List SrcFile :=
  [⟨"m.py", .ok [.functionDef (.mk "foo" [⟨"x", none⟩] none [])]⟩]

/-- The registry collected from `exC7Files`. -/
def exC7Af : Dict FuncInfo := (collect_functions_and_imports exC7Files).all_functions

/-- C7 counterexample: for the unannotated parameter `x` of `m.foo` the
recorded type text is `"Any"` (and so is the recorded return type), which is
not the claimed sentinel `"any"`. -/
theorem param_return_capture_cex :
    (Dict.find? (build_function_call_graph exC7Af [] []) "m.foo").map
        (fun d => (d.args, d.ret))
      = some ([("x", "Any")], "Any")
    ∧ ("Any" : String) ≠ "any" := by decide

/-- C7 amended — Parameter and return capture: for every collected
definition, the recorded parameter list is the ordered list of (name,
declared type text) pairs with the sentinel `"Any"` for every unannotated
parameter, and the recorded return type is the declared annotation text, or
`"Any"` when the definition has no return annotation. -/
theorem param_return_capture
    (all_functions : Dict FuncInfo) (module_imports : Dict (Dict String))
    (symbol_imports : Dict (Dict (Option String × String)))
    (q : String) (info : FuncInfo)
    (hnd : (Dict.keys all_functions).Nodup) (hmem : (q, info) ∈ all_functions) :
    (Dict.find? (build_function_call_graph all_functions module_imports symbol_imports) q).map
        (fun d => (d.args, d.ret))
      = some (info.2.1.args.map (fun a => (a.arg,
            match a.annot with | some t => t | none => "Any")),
          (match info.2.1.returns with | some t => t | none => "Any")) := by
  simp only [build_function_call_graph]
  rw [Dict.find?_map_of_nodup
    (fun _ info => detailsFor all_functions module_imports symbol_imports
      (build_symbol_to_func all_functions) info) all_functions q info hnd hmem]
  rfl

theorem param_return_capture_witness :
    (Dict.find? (build_function_call_graph exC7Af [] []) "m.foo").map
        (fun d => (d.args, d.ret))
      = some ([("x", "Any")], "Any") := by
  have h := param_return_capture exC7Af [] [] "m.foo"
    ("m.py", FuncDef.mk "foo" [⟨"x", none⟩] none [], none)
    (by decide)
    (by
      have he : exC7Af
          = [("m.foo", ("m.py", FuncDef.mk "foo" [⟨"x", none⟩] none [], none))] := rfl
      rw [he]
      exact List.mem_singleton.mpr rfl)
  exact h

/-! ### C6: parse-failure isolation -/

theorem fileRegs_of_error {file : SrcFile} {e : String} (h : file.parse = .error e) :
    fileRegs file = [] := by
  unfold fileRegs
  rw [h]

theorem mem_fileRegs_path {file : SrcFile} {k : String} {v : FuncInfo}
    (h : (k, v) ∈ fileRegs file) : v.1 = file.path := by
  unfold fileRegs at h
  cases hp : file.parse with
  | error e => rw [hp] at h; simp at h
  | ok body =>
    rw [hp] at h
    rcases List.mem_flatMap.mp h with ⟨s, hs, hks⟩
    cases s with
    | functionDef fd =>
      simp only [stmtRegs, List.mem_singleton, Prod.mk.injEq] at hks
      rw [hks.2]
    | classDef cname cbody =>
      simp only [stmtRegs] at hks
      rcases List.mem_filterMap.mp hks with ⟨item, hitem, hsome⟩
      cases item with
      | functionDef fd =>
        simp only [Option.some.injEq, Prod.mk.injEq] at hsome
        rw [← hsome.2]
      | classDef c b => simp at hsome
      | importStmt ns => simp at hsome
      | importFrom mo ns => simp at hsome
      | exprStmt e => simp at hsome
      | ret e => simp at hsome
    | importStmt ns => simp [stmtRegs] at hks
    | importFrom mo ns => simp [stmtRegs] at hks
    | exprStmt e => simp [stmtRegs] at hks
    | ret e => simp [stmtRegs] at hks

theorem allRegs_filter_path (files : List SrcFile) (p : String)
    (hfail : ∀ g ∈ files, g.path = p → ∃ e', g.parse = .error e') :
    allRegs (files.filter (fun g => g.path ≠ p)) = allRegs files := by
  induction files with
  | nil => rfl
  | cons g rest ih =>
    have hrest : ∀ g' ∈ rest, g'.path = p → ∃ e', g'.parse = .error e' :=
      fun g' hg' => hfail g' (List.mem_cons_of_mem _ hg')
    by_cases hp : g.path = p
    · rcases hfail g (List.mem_cons_self _ _) hp with ⟨e', he'⟩
      have h1 : allRegs ((g :: rest).filter (fun f => f.path ≠ p))
          = allRegs (rest.filter (fun f => f.path ≠ p)) := by
        simp [allRegs, List.filter_cons, hp]
      have h2 : allRegs (g :: rest) = allRegs rest := by
        simp [allRegs, List.flatMap_cons, fileRegs_of_error he']
      rw [h1, h2, ih hrest]
    · have h1 : allRegs ((g :: rest).filter (fun f => f.path ≠ p))
          = fileRegs g ++ allRegs (rest.filter (fun f => f.path ≠ p)) := by
        simp [allRegs, List.filter_cons, hp]
      have h2 : allRegs (g :: rest) = fileRegs g ++ allRegs rest := by
        simp [allRegs, List.flatMap_cons]
      rw [h1, h2, ih hrest]

/-- C6 — Parse-failure isolation: when a file's parse fails, an error line
naming the file is logged, no definition whose recorded defining file is that
file appears in the registry, the registry is the same as if the file had not
been in the input at all, and the call-graph output still has exactly one
entry per registry key (all other files proceed unchanged). -/
theorem parse_failure_isolation (files : List SrcFile) (file : SrcFile) (e : String)
    (hf : file ∈ files) (he : file.parse = .error e)
    (hall : ∀ g ∈ files, g.path = file.path → ∃ e', g.parse = .error e') :
    ("Failed to parse " ++ file.path ++ ": " ++ e) ∈ (collect_functions_and_imports files).log
    ∧ (∀ (k : String) (v : FuncInfo),
        (k, v) ∈ (collect_functions_and_imports files).all_functions → v.1 ≠ file.path)
    ∧ (collect_functions_and_imports files).all_functions
        = (collect_functions_and_imports
            (files.filter (fun g => g.path ≠ file.path))).all_functions
    ∧ Dict.keys (build_function_call_graph (collect_functions_and_imports files).all_functions
          (collect_functions_and_imports files).module_imports
          (collect_functions_and_imports files).symbol_imports)
        = Dict.keys (collect_functions_and_imports files).all_functions := by
  refine ⟨?_, ?_, ?_, ?_⟩
  · rw [collect_log]
    refine List.mem_flatMap.mpr ⟨file, hf, ?_⟩
    rw [he]
    exact List.mem_singleton.mpr rfl
  · intro k v hkv hpath
    rw [collect_all_functions] at hkv
    rcases mem_insertAll hkv with hkv | hkv
    · simp at hkv
    · rcases List.mem_flatMap.mp hkv with ⟨g, hg, hreg⟩
      have hgp : g.path = file.path := by rw [← mem_fileRegs_path hreg, hpath]
      rcases hall g hg hgp with ⟨e', he'⟩
      rw [fileRegs_of_error he'] at hreg
      simp at hreg
  · rw [collect_all_functions, collect_all_functions, allRegs_filter_path files file.path hall]
  · simp only [build_function_call_graph]
    exact Dict.keys_map_fst (collect_functions_and_imports files).all_functions
      (fun _ info => detailsFor (collect_functions_and_imports files).all_functions
        (collect_functions_and_imports files).module_imports
        (collect_functions_and_imports files).symbol_imports
        (build_symbol_to_func (collect_functions_and_imports files).all_functions) info)

/-- A well-formed module and a file that fails to parse. -/
def exC6Files : List SrcFile :=
  [⟨"good.py", .ok [.functionDef (.mk "g" [] none [])]⟩,
   ⟨"bad.py", .error "synerr"⟩]

theorem parse_failure_isolation_witness :
    ("Failed to parse bad.py: synerr") ∈ (collect_functions_and_imports exC6Files).log
    ∧ (collect_functions_and_imports exC6Files).all_functions
        = (collect_functions_and_imports
            (exC6Files.filter (fun g => g.path ≠ "bad.py"))).all_functions := by
  have h := parse_failure_isolation exC6Files ⟨"bad.py", .error "synerr"⟩ "synerr"
    (List.mem_cons_of_mem _ (List.mem_cons_self _ _))
    rfl
    (by
      intro g hg hpath
      rcases List.mem_cons.mp hg with rfl | hg
      · exact absurd hpath (by decide)
      · rcases List.mem_singleton.mp hg with rfl
        exact ⟨"synerr", rfl⟩)
  exact ⟨h.1, h.2.2.1⟩

/-! ### C10: import-table entries exist for every input file -/

theorem collectStmt_module_imports_frame (m p : String) (st : CollectResult) (s : Stmt)
    (mod : String) (h : m ≠ mod) :
    Dict.find? (collectStmt m p st s).module_imports mod
      = Dict.find? st.module_imports mod := by
  cases s with
  | importStmt ns => exact Dict.find?_insert_ne _ _ _ _ (Ne.symm h)
  | functionDef fd => rfl
  | classDef c b => rfl
  | importFrom mo ns => rfl
  | exprStmt e => rfl
  | ret e => rfl

theorem collectStmt_symbol_imports_frame (m p : String) (st : CollectResult) (s : Stmt)
    (mod : String) (h : m ≠ mod) :
    Dict.find? (collectStmt m p st s).symbol_imports mod
      = Dict.find? st.symbol_imports mod := by
  cases s with
  | importFrom mo ns => exact Dict.find?_insert_ne _ _ _ _ (Ne.symm h)
  | functionDef fd => rfl
  | classDef c b => rfl
  | importStmt ns => rfl
  | exprStmt e => rfl
  | ret e => rfl

theorem foldl_collectStmt_tables_frame (m p : String) (body : List Stmt)
    (st : CollectResult) (mod : String) (h : m ≠ mod) :
    Dict.find? ((body.foldl (collectStmt m p) st)).module_imports mod
      = Dict.find? st.module_imports mod
    ∧ Dict.find? ((body.foldl (collectStmt m p) st)).symbol_imports mod
      = Dict.find? st.symbol_imports mod := by
  induction body generalizing st with
  | nil => exact ⟨rfl, rfl⟩
  | cons s rest ih =>
    rcases ih (collectStmt m p st s) with ⟨h1, h2⟩
    exact ⟨h1.trans (collectStmt_module_imports_frame m p st s mod h),
      h2.trans (collectStmt_symbol_imports_frame m p st s mod h)⟩

theorem collectFile_tables_frame (st : CollectResult) (file : SrcFile) (mod : String)
    (h : get_module_name file.path ≠ mod) :
    Dict.find? (collectFile st file).module_imports mod = Dict.find? st.module_imports mod
    ∧ Dict.find? (collectFile st file).symbol_imports mod
      = Dict.find? st.symbol_imports mod := by
  unfold collectFile
  cases file.parse with
  | error e =>
    exact ⟨Dict.find?_insert_ne _ _ _ _ (Ne.symm h), Dict.find?_insert_ne _ _ _ _ (Ne.symm h)⟩
  | ok body =>
    rcases foldl_collectStmt_tables_frame (get_module_name file.path) file.path body
      { st with
        module_imports := Dict.insert st.module_imports (get_module_name file.path) [],
        symbol_imports := Dict.insert st.symbol_imports (get_module_name file.path) [] }
      mod h with ⟨h1, h2⟩
    exact ⟨h1.trans (Dict.find?_insert_ne _ _ _ _ (Ne.symm h)),
      h2.trans (Dict.find?_insert_ne _ _ _ _ (Ne.symm h))⟩

theorem foldl_collectFile_tables_frame (files : List SrcFile) (st : CollectResult)
    (mod : String) (h : ∀ g ∈ files, get_module_name g.path ≠ mod) :
    Dict.find? ((files.foldl collectFile st)).module_imports mod
      = Dict.find? st.module_imports mod
    ∧ Dict.find? ((files.foldl collectFile st)).symbol_imports mod
      = Dict.find? st.symbol_imports mod := by
  induction files generalizing st with
  | nil => exact ⟨rfl, rfl⟩
  | cons g rest ih =>
    have hg := h g (List.mem_cons_self _ _)
    have hrest : ∀ g' ∈ rest, get_module_name g'.path ≠ mod :=
      fun g' hg' => h g' (List.mem_cons_of_mem _ hg')
    rcases ih (collectFile st g) hrest with ⟨h1, h2⟩
    rcases collectFile_tables_frame st g mod hg with ⟨h3, h4⟩
    exact ⟨h1.trans h3, h2.trans h4⟩

theorem collectStmt_contains_mono (m p : String) (st : CollectResult) (s : Stmt)
    (mod : String) :
    (Dict.contains st.module_imports mod = true →
      Dict.contains (collectStmt m p st s).module_imports mod = true)
    ∧ (Dict.contains st.symbol_imports mod = true →
      Dict.contains (collectStmt m p st s).symbol_imports mod = true) := by
  cases s <;> constructor <;> intro h <;>
    simp only [collectStmt] <;>
    first
      | exact h
      | (rw [Dict.contains_insert]; simp [h])

theorem foldl_collectStmt_contains_mono (m p : String) (body : List Stmt)
    (st : CollectResult) (mod : String)
    (hmi : Dict.contains st.module_imports mod = true)
    (hsi : Dict.contains st.symbol_imports mod = true) :
    Dict.contains ((body.foldl (collectStmt m p) st)).module_imports mod = true
    ∧ Dict.contains ((body.foldl (collectStmt m p) st)).symbol_imports mod = true := by
  induction body generalizing st with
  | nil => exact ⟨hmi, hsi⟩
  | cons s rest ih =>
    exact ih (collectStmt m p st s)
      ((collectStmt_contains_mono m p st s mod).1 hmi)
      ((collectStmt_contains_mono m p st s mod).2 hsi)

theorem collectFile_contains_own (st : CollectResult) (file : SrcFile) :
    Dict.contains (collectFile st file).module_imports (get_module_name file.path) = true
    ∧ Dict.contains (collectFile st file).symbol_imports (get_module_name file.path)
      = true := by
  unfold collectFile
  cases file.parse with
  | error e => constructor <;> (rw [Dict.contains_insert]; simp)
  | ok body =>
    apply foldl_collectStmt_contains_mono <;> (rw [Dict.contains_insert]; simp)

theorem collectFile_contains_mono (st : CollectResult) (file : SrcFile) (mod : String)
    (hmi : Dict.contains st.module_imports mod = true)
    (hsi : Dict.contains st.symbol_imports mod = true) :
    Dict.contains (collectFile st file).module_imports mod = true
    ∧ Dict.contains (collectFile st file).symbol_imports mod = true := by
  unfold collectFile
  cases file.parse with
  | error e => constructor <;> (rw [Dict.contains_insert]; simp [hmi, hsi])
  | ok body =>
    apply foldl_collectStmt_contains_mono <;> (rw [Dict.contains_insert]; simp [hmi, hsi])

theorem foldl_collectFile_contains_mono (files : List SrcFile) (st : CollectResult)
    (mod : String)
    (hmi : Dict.contains st.module_imports mod = true)
    (hsi : Dict.contains st.symbol_imports mod = true) :
    Dict.contains ((files.foldl collectFile st)).module_imports mod = true
    ∧ Dict.contains ((files.foldl collectFile st)).symbol_imports mod = true := by
  induction files generalizing st with
  | nil => exact ⟨hmi, hsi⟩
  | cons g rest ih =>
    exact ih (collectFile st g)
      (collectFile_contains_mono st g mod hmi hsi).1
      (collectFile_contains_mono st g mod hmi hsi).2

theorem collectFile_tables_of_fail (st : CollectResult) (file : SrcFile) (e : String)
    (he : file.parse = .error e) :
    Dict.find? (collectFile st file).module_imports (get_module_name file.path) = some []
    ∧ Dict.find? (collectFile st file).symbol_imports (get_module_name file.path)
      = some [] := by
  unfold collectFile
  rw [he]
  exact ⟨Dict.find?_insert_self _ _ _, Dict.find?_insert_self _ _ _⟩

theorem foldl_collectFile_tables_of_all_fail (files : List SrcFile) (mod : String) :
    ∀ st : CollectResult, (∃ f ∈ files, get_module_name f.path = mod) →
      (∀ g ∈ files, get_module_name g.path = mod → ∃ e', g.parse = .error e') →
      Dict.find? ((files.foldl collectFile st)).module_imports mod = some []
      ∧ Dict.find? ((files.foldl collectFile st)).symbol_imports mod = some [] := by
  induction files with
  | nil =>
    intro st hex _
    simp at hex
  | cons g rest ih =>
    intro st hex hfail
    have hfailrest : ∀ g' ∈ rest, get_module_name g'.path = mod → ∃ e', g'.parse = .error e' :=
      fun g' h' => hfail g' (List.mem_cons_of_mem _ h')
    simp only [List.foldl_cons]
    by_cases hmod : get_module_name g.path = mod
    · rcases hfail g (List.mem_cons_self _ _) hmod with ⟨e', he'⟩
      by_cases hex2 : ∃ f ∈ rest, get_module_name f.path = mod
      · exact ih (collectFile st g) hex2 hfailrest
      · have hnone : ∀ f ∈ rest, get_module_name f.path ≠ mod :=
          fun f hf hc => hex2 ⟨f, hf, hc⟩
        have hframe := foldl_collectFile_tables_frame rest (collectFile st g) mod hnone
        have hown := collectFile_tables_of_fail st g e' he'
        rw [hmod] at hown
        exact ⟨hframe.1.trans hown.1, hframe.2.trans hown.2⟩
    · rcases hex with ⟨f, hfm, hfmod⟩
      rcases List.mem_cons.mp hfm with rfl | hfm
      · exact absurd hfmod hmod
      · exact ih (collectFile st g) ⟨f, hfm, hfmod⟩ hfailrest

theorem collect_contains_of_mem (files : List SrcFile) (file : SrcFile) (hf : file ∈ files) :
    Dict.contains (collect_functions_and_imports files).module_imports
      (get_module_name file.path) = true
    ∧ Dict.contains (collect_functions_and_imports files).symbol_imports
      (get_module_name file.path) = true := by
  unfold collect_functions_and_imports
  suffices H : ∀ (fs : List SrcFile) (st : CollectResult), file ∈ fs →
      Dict.contains ((fs.foldl collectFile st)).module_imports
        (get_module_name file.path) = true
      ∧ Dict.contains ((fs.foldl collectFile st)).symbol_imports
        (get_module_name file.path) = true by
    exact H files ⟨[], [], [], []⟩ hf
  intro fs
  induction fs with
  | nil => intro st h; simp at h
  | cons g rest ih =>
    intro st h
    simp only [List.foldl_cons]
    rcases List.mem_cons.mp h with rfl | h
    · exact foldl_collectFile_contains_mono rest (collectFile st file) _
        (collectFile_contains_own st file).1 (collectFile_contains_own st file).2
    · exact ih (collectFile st g) h

/-- C10 — Implicit: after collection the module-alias table and the symbol
table each contain a key for the module name of every input file, including
files whose parse failed, because the entries are created before the parse is
attempted; and when every input file of a given module name fails to parse,
that module's entries are still present and empty. -/
theorem import_tables_initialized (files : List SrcFile) (file : SrcFile)
    (hf : file ∈ files) :
    (Dict.contains (collect_functions_and_imports files).module_imports
        (get_module_name file.path) = true
      ∧ Dict.contains (collect_functions_and_imports files).symbol_imports
        (get_module_name file.path) = true)
    ∧ (∀ e, file.parse = .error e →
        (∀ g ∈ files, get_module_name g.path = get_module_name file.path →
          ∃ e', g.parse = .error e') →
        Dict.find? (collect_functions_and_imports files).module_imports
          (get_module_name file.path) = some []
        ∧ Dict.find? (collect_functions_and_imports files).symbol_imports
          (get_module_name file.path) = some []) := by
  constructor
  · exact collect_contains_of_mem files file hf
  · intro e he hfail
    exact foldl_collectFile_tables_of_all_fail files _ ⟨[], [], [], []⟩ ⟨file, hf, rfl⟩ hfail

/-- One parsed module with an import, and a file that fails to parse. -/
def exC10Files : List SrcFile :=
  [⟨"ok.py", .ok [.importStmt [⟨"os", none⟩]]⟩,
   ⟨"bad.py", .error "oops"⟩]

theorem import_tables_initialized_witness :
    (Dict.contains (collect_functions_and_imports exC10Files).module_imports "bad" = true
      ∧ Dict.contains (collect_functions_and_imports exC10Files).symbol_imports "bad" = true)
    ∧ Dict.find? (collect_functions_and_imports exC10Files).module_imports "bad" = some []
    ∧ Dict.find? (collect_functions_and_imports exC10Files).symbol_imports "bad" = some [] := by
  have h := import_tables_initialized exC10Files ⟨"bad.py", .error "oops"⟩
    (List.mem_cons_of_mem _ (List.mem_cons_self _ _))
  have h2 := h.2 "oops" rfl
    (by
      intro g hg hpath
      rcases List.mem_cons.mp hg with rfl | hg
      · exact absurd hpath (by decide)
      · rcases List.mem_singleton.mp hg with rfl
        exact ⟨"oops", rfl⟩)
  exact ⟨h.1, h2⟩

/-! ### C3: symbol-import resolution -/

theorem Dict.contains_of_mem_keys {α : Type} {d : Dict α} {k : String}
    (h : k ∈ Dict.keys d) : Dict.contains d k = true := by
  rcases List.mem_map.mp h with ⟨p, hp, hpk⟩
  refine Dict.contains_eq_true_of_mem (v := p.2) ?_
  rw [← hpk]
  exact hp

theorem strEndsWith_dot (om nm : String) :
    strEndsWith (om ++ "." ++ nm) ("." ++ nm) = true := by
  simp only [strEndsWith, List.isSuffixOf_iff_suffix, String.data_append]
  rw [List.append_assoc]
  exact List.suffix_append _ _

theorem strStartsWith_dot (om nm : String) :
    strStartsWith (om ++ "." ++ nm) om = true := by
  simp only [strStartsWith, List.isPrefixOf_iff_prefix, String.data_append]
  rw [List.append_assoc]
  exact List.prefix_append _ _

/-- The registered names that one extracted bare name contributes to a
definition's call-edge set. -/
def keptFor (all_functions : Dict FuncInfo) (module_imports : Dict (Dict String))
    (symbol_imports : Dict (Dict (Option String × String)))
    (symbol_to_func : Dict (Finset String)) (m nm : String) : Finset String :=
  match resolve_function_name nm m module_imports symbol_imports all_functions symbol_to_func with
  | some resolved => resolved.filter (fun r => Dict.contains all_functions r = true)
  | none => ∅

theorem subset_collectCallStep (all_functions : Dict FuncInfo)
    (module_imports : Dict (Dict String))
    (symbol_imports : Dict (Dict (Option String × String)))
    (symbol_to_func : Dict (Finset String)) (m : String)
    (acc : Finset String) (e : PyExpr) :
    acc ⊆ collectCallStep all_functions module_imports symbol_imports symbol_to_func m acc e := by
  unfold collectCallStep
  repeat' split
  all_goals first
    | exact Finset.Subset.refl _
    | exact Finset.subset_union_left

theorem mem_collectCallStep_of_kept {all_functions : Dict FuncInfo}
    {module_imports : Dict (Dict String)}
    {symbol_imports : Dict (Dict (Option String × String))}
    {symbol_to_func : Dict (Finset String)} {m : String}
    {acc : Finset String} {e : PyExpr} {nm x : String}
    (hn : getCallName e = some nm) (hne : nm ≠ "")
    (hx : x ∈ keptFor all_functions module_imports symbol_imports symbol_to_func m nm) :
    x ∈ collectCallStep all_functions module_imports symbol_imports symbol_to_func m acc e := by
  simp only [collectCallStep, hn]
  rw [if_neg hne]
  split
  next resolved heq =>
    simp only [keptFor, heq] at hx
    have hres : resolved ≠ ∅ := Finset.ne_empty_of_mem (Finset.mem_filter.mp hx).1
    have hfil : resolved.filter (fun r => Dict.contains all_functions r = true) ≠ ∅ :=
      Finset.ne_empty_of_mem hx
    rw [if_pos ⟨hres, hfil⟩]
    exact Finset.mem_union_right _ hx
  next heq =>
    simp only [keptFor, heq] at hx
    simp at hx

theorem mem_collectCallStep_cases {all_functions : Dict FuncInfo}
    {module_imports : Dict (Dict String)}
    {symbol_imports : Dict (Dict (Option String × String))}
    {symbol_to_func : Dict (Finset String)} {m : String}
    {acc : Finset String} {e : PyExpr} {x : String}
    (h : x ∈ collectCallStep all_functions module_imports symbol_imports symbol_to_func m acc e) :
    x ∈ acc ∨ ∃ nm, getCallName e = some nm ∧ nm ≠ ""
      ∧ x ∈ keptFor all_functions module_imports symbol_imports symbol_to_func m nm := by
  unfold collectCallStep at h
  cases hn : getCallName e with
  | none => simp only [hn] at h; exact Or.inl h
  | some nm =>
    simp only [hn] at h
    by_cases hne : nm = ""
    · rw [if_pos hne] at h; exact Or.inl h
    · rw [if_neg hne] at h
      cases hr : resolve_function_name nm m module_imports symbol_imports
          all_functions symbol_to_func with
      | none => simp only [hr] at h; exact Or.inl h
      | some resolved =>
        simp only [hr] at h
        by_cases hc : resolved ≠ ∅
            ∧ resolved.filter (fun r => Dict.contains all_functions r = true) ≠ ∅
        · rw [if_pos hc] at h
          rcases Finset.mem_union.mp h with h | h
          · exact Or.inl h
          · exact Or.inr ⟨nm, rfl, hne, by simp only [keptFor, hr]; exact h⟩
        · rw [if_neg hc] at h; exact Or.inl h

theorem subset_foldl_collectCallStep (all_functions : Dict FuncInfo)
    (module_imports : Dict (Dict String))
    (symbol_imports : Dict (Dict (Option String × String)))
    (symbol_to_func : Dict (Finset String)) (m : String)
    (l : List PyExpr) (acc : Finset String) :
    acc ⊆ l.foldl (collectCallStep all_functions module_imports symbol_imports
      symbol_to_func m) acc := by
  induction l generalizing acc with
  | nil => exact Finset.Subset.refl _
  | cons e es ih =>
    exact (subset_collectCallStep all_functions module_imports symbol_imports
      symbol_to_func m acc e).trans (ih _)

theorem mem_foldl_collectCallStep_of {all_functions : Dict FuncInfo}
    {module_imports : Dict (Dict String)}
    {symbol_imports : Dict (Dict (Option String × String))}
    {symbol_to_func : Dict (Finset String)} {m : String}
    (l : List PyExpr) (acc : Finset String) {e : PyExpr} {nm x : String}
    (he : e ∈ l) (hn : getCallName e = some nm) (hne : nm ≠ "")
    (hx : x ∈ keptFor all_functions module_imports symbol_imports symbol_to_func m nm) :
    x ∈ l.foldl (collectCallStep all_functions module_imports symbol_imports
      symbol_to_func m) acc := by
  induction l generalizing acc with
  | nil => simp at he
  | cons e' es ih =>
    rcases List.mem_cons.mp he with rfl | he
    · exact subset_foldl_collectCallStep all_functions module_imports symbol_imports
        symbol_to_func m es _ (mem_collectCallStep_of_kept hn hne hx)
    · exact ih _ he

theorem mem_foldl_collectCallStep_cases {all_functions : Dict FuncInfo}
    {module_imports : Dict (Dict String)}
    {symbol_imports : Dict (Dict (Option String × String))}
    {symbol_to_func : Dict (Finset String)} {m : String}
    (l : List PyExpr) (acc : Finset String) {x : String}
    (h : x ∈ l.foldl (collectCallStep all_functions module_imports symbol_imports
      symbol_to_func m) acc) :
    x ∈ acc ∨ ∃ e ∈ l, ∃ nm, getCallName e = some nm ∧ nm ≠ ""
      ∧ x ∈ keptFor all_functions module_imports symbol_imports symbol_to_func m nm := by
  induction l generalizing acc with
  | nil => exact Or.inl h
  | cons e' es ih =>
    rcases ih _ h with h' | h'
    · rcases mem_collectCallStep_cases h' with h'' | ⟨nm, h1, h2, h3⟩
      · exact Or.inl h''
      · exact Or.inr ⟨e', List.mem_cons_self _ _, nm, h1, h2, h3⟩
    · rcases h' with ⟨e, hel, hrest⟩
      exact Or.inr ⟨e, List.mem_cons_of_mem _ hel, hrest⟩

/-- When there is no local-scope match and the calling module's symbol table
maps the bare name to `(om, nm)`, with at least one matching registered name,
resolution returns exactly the registered names that end with `.nm` and start
with the string `om`. -/
theorem resolve_symbol_import (all_functions : Dict FuncInfo)
    (module_imports : Dict (Dict String))
    (symbol_imports : Dict (Dict (Option String × String)))
    (symbol_to_func : Dict (Finset String)) (cm om nm : String)
    (hnolocal : ∀ k ∈ Dict.keys all_functions,
      ¬(strStartsWith k (cm ++ ".") = true ∧ lastSeg k = nm))
    (hsym : Dict.find? ((Dict.find? symbol_imports cm).getD []) nm = some (some om, nm))
    (hbmem : (om ++ "." ++ nm) ∈ Dict.keys all_functions) :
    resolve_function_name nm cm module_imports symbol_imports all_functions symbol_to_func
      = some (((Dict.keys all_functions).filter
          (fun k => strEndsWith k ("." ++ nm) && strStartsWith k om)).toFinset) := by
  have hres : (om ++ "." ++ nm) ∈ (Dict.keys all_functions).filter
      (fun k => strEndsWith k ("." ++ nm) && strStartsWith k om) :=
    List.mem_filter.mpr ⟨hbmem, by simp [strEndsWith_dot, strStartsWith_dot]⟩
  have hposs : (Dict.keys all_functions).filter
      (fun c => strStartsWith c (cm ++ ".") && lastSeg c == nm) = [] := by
    rw [List.filter_eq_nil_iff]
    intro k hk
    have := hnolocal k hk
    simp only [Bool.and_eq_true, beq_iff_eq]
    intro hc
    exact this ⟨hc.1, hc.2⟩
  simp only [resolve_function_name, hposs, hsym, Option.getD_some]
  rw [if_pos (Finset.ne_empty_of_mem (List.mem_toFinset.mpr hres))]
  rw [if_neg (by simp)]

/-- C3 amended — Symbol-import resolution: for every registry in which
`om.nm` exists and the calling module `cm` defines no local `nm`, if `cm`'s
symbol table maps `nm` to origin `(om, nm)` and some definition in module
`cm` calls `nm()` and extracts no other bare name, then that definition's
call-edge set contains `om.nm` and excludes every registered definition whose
final segment is `nm` and whose qualified name does not start — as a raw
string prefix, not a module prefix — with `om` (names such as `banana.util`
for origin `b` do pass the prefix test and are included; that is the
correction to the original claim). -/
theorem symbol_import_resolution
    (all_functions : Dict FuncInfo) (module_imports : Dict (Dict String))
    (symbol_imports : Dict (Dict (Option String × String)))
    (cm om nm q p : String) (node : FuncDef) (cls : Option String)
    (hnm : nm ≠ "")
    (hnd : (Dict.keys all_functions).Nodup)
    (hmem : (q, (p, node, cls)) ∈ all_functions)
    (hmod : get_module_name p = cm)
    (hbmem : (om ++ "." ++ nm) ∈ Dict.keys all_functions)
    (hnolocal : ∀ k ∈ Dict.keys all_functions,
      ¬(strStartsWith k (cm ++ ".") = true ∧ lastSeg k = nm))
    (hsym : Dict.find? ((Dict.find? symbol_imports cm).getD []) nm = some (some om, nm))
    (honly : ∀ e ∈ walkFuncDef node, getCallName e = none ∨ getCallName e = some nm)
    (hcall : ∃ e ∈ walkFuncDef node, getCallName e = some nm) :
    ∃ d : FuncDetails,
      Dict.find? (build_function_call_graph all_functions module_imports symbol_imports) q
        = some d
      ∧ (om ++ "." ++ nm) ∈ d.calls
      ∧ ∀ k ∈ Dict.keys all_functions, lastSeg k = nm → strStartsWith k om = false →
          k ∉ d.calls := by
  have hfind : Dict.find? (build_function_call_graph all_functions module_imports
      symbol_imports) q = some (detailsFor all_functions module_imports symbol_imports
      (build_symbol_to_func all_functions) (p, node, cls)) := by
    simp only [build_function_call_graph]
    exact Dict.find?_map_of_nodup
      (fun _ info => detailsFor all_functions module_imports symbol_imports
        (build_symbol_to_func all_functions) info) all_functions q (p, node, cls) hnd hmem
  have hcalls : (detailsFor all_functions module_imports symbol_imports
      (build_symbol_to_func all_functions) (p, node, cls)).calls
    = (walkFuncDef node).foldl (collectCallStep all_functions module_imports symbol_imports
        (build_symbol_to_func all_functions) (get_module_name p)) ∅ := rfl
  have hresolve := resolve_symbol_import all_functions module_imports symbol_imports
    (build_symbol_to_func all_functions) cm om nm hnolocal hsym hbmem
  refine ⟨_, hfind, ?_, ?_⟩
  · rw [hcalls, hmod]
    obtain ⟨e, hel, hen⟩ := hcall
    refine mem_foldl_collectCallStep_of _ _ hel hen hnm ?_
    simp only [keptFor, hresolve]
    refine Finset.mem_filter.mpr ⟨List.mem_toFinset.mpr ?_, ?_⟩
    · exact List.mem_filter.mpr ⟨hbmem, by simp [strEndsWith_dot, strStartsWith_dot]⟩
    · exact Dict.contains_of_mem_keys hbmem
  · intro k hk hlast hpre hmem'
    rw [hcalls, hmod] at hmem'
    rcases mem_foldl_collectCallStep_cases _ _ hmem' with h | ⟨e, hel, nm', hen, hne', hkept⟩
    · simp at h
    · rcases honly e hel with h0 | h0
      · rw [h0] at hen; cases hen
      · rw [h0] at hen
        have hnm' : nm = nm' := by
          injection hen
        subst hnm'
        simp only [keptFor, hresolve] at hkept
        have hlist := List.mem_filter.mp (List.mem_toFinset.mp (Finset.mem_filter.mp hkept).1)
        have := hlist.2
        simp only [Bool.and_eq_true] at this
        rw [hpre] at this
        exact Bool.false_ne_true this.2

/-- The counterexample input for the original C3: modules `b`, `banana` and
`c` each define `util`; module `a` has `from b import util` and
`from c import util as v`, and `a.f` calls `util()` and `v()`. -/
def exC3Files : List SrcFile :=
  [⟨"b.py", .ok [.functionDef (.mk "util" [] none [])]⟩,
   ⟨"banana.py", .ok [.functionDef (.mk "util" [] none [])]⟩,
   ⟨"c.py", .ok [.functionDef (.mk "util" [] none [])]⟩,
   ⟨"a.py", .ok
      [.importFrom (some "b") [⟨"util", none⟩],
       .importFrom (some "c") [⟨"util", some "v"⟩],
       .functionDef (.mk "f" [] none
        [.exprStmt (.call (.name "util") []), .exprStmt (.call (.name "v") [])])]⟩]

/-- The call-edge set computed for `a.f` on the counterexample input. -/
def exC3Calls : Finset String :=
  ((Dict.find? (build_function_call_graph
      (collect_functions_and_imports exC3Files).all_functions
      (collect_functions_and_imports exC3Files).module_imports
      (collect_functions_and_imports exC3Files).symbol_imports) "a.f").map
    (fun d => d.calls)).getD ∅

/-- C3 counterexample: `b.util` is in the registry, module `a` defines no
local `util`, and `a`'s symbol table maps `util` to `(b, util)`; yet the
call-edge set of `a.f` also contains `banana.util` (the raw-string prefix
test lets it through) and `c.util` (via the aliased import of the same bare
name) — both registered definitions with final segment `util` other than
`b.util`, which the claim says are excluded. -/
theorem symbol_import_resolution_cex :
    "b.util" ∈ Dict.keys (collect_functions_and_imports exC3Files).all_functions
    ∧ Dict.find? ((Dict.find? (collect_functions_and_imports exC3Files).symbol_imports
        "a").getD []) "util" = some (some "b", "util")
    ∧ (∀ k ∈ Dict.keys (collect_functions_and_imports exC3Files).all_functions,
        ¬(strStartsWith k ("a" ++ ".") = true ∧ lastSeg k = "util"))
    ∧ "b.util" ∈ exC3Calls
    ∧ "banana.util" ∈ exC3Calls
    ∧ lastSeg "banana.util" = "util"
    ∧ "banana.util" ∈ Dict.keys (collect_functions_and_imports exC3Files).all_functions
    ∧ "banana.util" ≠ "b.util"
    ∧ "c.util" ∈ exC3Calls
    ∧ lastSeg "c.util" = "util"
    ∧ "c.util" ∈ Dict.keys (collect_functions_and_imports exC3Files).all_functions
    ∧ "c.util" ≠ "b.util" := by decide

/-- Witness registry for the amended C3: `b.util` and `c2.util` are defined,
module `a` imports `util` from `b`, and `a.f` only calls `util()`. -/
def exC3WAf : Dict FuncInfo :=
  [("b.util", ("b.py", FuncDef.mk "util" [] none [], none)),
   ("c2.util", ("c2.py", FuncDef.mk "util" [] none [], none)),
   ("a.f", ("a.py", FuncDef.mk "f" [] none [.exprStmt (.call (.name "util") [])], none))]

/-- Witness symbol table for the amended C3. -/
def exC3WSym : Dict (Dict (Option String × String)) :=
  [("a", [("util", (some "b", "util"))])]

theorem symbol_import_resolution_witness :
    ∃ d : FuncDetails,
      Dict.find? (build_function_call_graph exC3WAf [] exC3WSym) "a.f" = some d
      ∧ "b.util" ∈ d.calls
      ∧ "c2.util" ∉ d.calls := by
  obtain ⟨d, hd, hin, hex⟩ := symbol_import_resolution exC3WAf [] exC3WSym
    "a" "b" "util" "a.f" "a.py"
    (FuncDef.mk "f" [] none [.exprStmt (.call (.name "util") [])]) none
    (by decide) (by decide)
    (List.mem_cons_of_mem _ (List.mem_cons_of_mem _ (List.mem_singleton.mpr rfl)))
    (by decide) (by decide) (by decide) rfl (by decide) (by decide)
  exact ⟨d, hd, hin, hex "c2.util" (by decide) (by decide) (by decide)⟩

/-! ### C4: callee-name extraction and full-body walking -/

mutual

/-- Expression `c` occurs as a node of expression `e`, at any depth. -/
inductive ExprIn : PyExpr → PyExpr → Prop where
  | refl (e : PyExpr) : ExprIn e e
  | inAttr {c v : PyExpr} (a : String) : ExprIn c v → ExprIn c (.attr v a)
  | inCallFunc {c f : PyExpr} (args : List PyExpr) : ExprIn c f → ExprIn c (.call f args)
  | inCallArg {c e f : PyExpr} {args : List PyExpr} :
      e ∈ args → ExprIn c e → ExprIn c (.call f args)
  | inSubVal {c v : PyExpr} (i : PyExpr) : ExprIn c v → ExprIn c (.subscript v i)
  | inSubIdx {c i : PyExpr} (v : PyExpr) : ExprIn c i → ExprIn c (.subscript v i)
  | inLam {c b : PyExpr} : ExprIn c b → ExprIn c (.lam b)

/-- Expression `c` occurs within statement `s`, descending into nested
scopes (nested function bodies and class bodies included). -/
inductive ExprInStmt : PyExpr → Stmt → Prop where
  | inExprStmt {c e : PyExpr} : ExprIn c e → ExprInStmt c (.exprStmt e)
  | inRet {c e : PyExpr} : ExprIn c e → ExprInStmt c (.ret (some e))
  | inNestedFunc {c : PyExpr} {fd : FuncDef} :
      ExprInFunc c fd → ExprInStmt c (.functionDef fd)
  | inClass {c : PyExpr} {s : Stmt} (cname : String) {cbody : List Stmt} :
      s ∈ cbody → ExprInStmt c s → ExprInStmt c (.classDef cname cbody)

/-- Expression `c` occurs within the body of definition `fd`. -/
inductive ExprInFunc : PyExpr → FuncDef → Prop where
  | inBody {c : PyExpr} {s : Stmt} (n : String) (args : List PyArg) (r : Option String)
      {body : List Stmt} : s ∈ body → ExprInStmt c s → ExprInFunc c (.mk n args r body)

end

mutual

theorem mem_walkExpr_iff : ∀ (e c : PyExpr), c ∈ walkExpr e ↔ ExprIn c e
  | .name i, c => by
      simp only [walkExpr, List.mem_singleton]
      constructor
      · rintro rfl
        exact ExprIn.refl _
      · rintro h
        cases h
        rfl
  | .attr v a, c => by
      simp only [walkExpr, List.mem_cons]
      constructor
      · rintro (rfl | h)
        · exact ExprIn.refl _
        · exact ExprIn.inAttr a ((mem_walkExpr_iff v c).mp h)
      · rintro h
        cases h with
        | refl => exact Or.inl rfl
        | inAttr _ h => exact Or.inr ((mem_walkExpr_iff v c).mpr h)
  | .call f args, c => by
      simp only [walkExpr, List.mem_cons, List.mem_append]
      constructor
      · rintro (rfl | h | h)
        · exact ExprIn.refl _
        · exact ExprIn.inCallFunc args ((mem_walkExpr_iff f c).mp h)
        · rcases (mem_walkExprList_iff args c).mp h with ⟨e, he, hin⟩
          exact ExprIn.inCallArg he hin
      · rintro h
        cases h with
        | refl => exact Or.inl rfl
        | inCallFunc _ h => exact Or.inr (Or.inl ((mem_walkExpr_iff f c).mpr h))
        | inCallArg he hin =>
            exact Or.inr (Or.inr ((mem_walkExprList_iff args c).mpr ⟨_, he, hin⟩))
  | .subscript v i, c => by
      simp only [walkExpr, List.mem_cons, List.mem_append]
      constructor
      · rintro (rfl | h | h)
        · exact ExprIn.refl _
        · exact ExprIn.inSubVal i ((mem_walkExpr_iff v c).mp h)
        · exact ExprIn.inSubIdx v ((mem_walkExpr_iff i c).mp h)
      · rintro h
        cases h with
        | refl => exact Or.inl rfl
        | inSubVal _ h => exact Or.inr (Or.inl ((mem_walkExpr_iff v c).mpr h))
        | inSubIdx _ h => exact Or.inr (Or.inr ((mem_walkExpr_iff i c).mpr h))
  | .lam b, c => by
      simp only [walkExpr, List.mem_cons]
      constructor
      · rintro (rfl | h)
        · exact ExprIn.refl _
        · exact ExprIn.inLam ((mem_walkExpr_iff b c).mp h)
      · rintro h
        cases h with
        | refl => exact Or.inl rfl
        | inLam h => exact Or.inr ((mem_walkExpr_iff b c).mpr h)
  | .const, c => by
      simp only [walkExpr, List.mem_singleton]
      constructor
      · rintro rfl
        exact ExprIn.refl _
      · rintro h
        cases h
        rfl

theorem mem_walkExprList_iff : ∀ (l : List PyExpr) (c : PyExpr),
    c ∈ walkExprList l ↔ ∃ e ∈ l, ExprIn c e
  | [], c => by simp [walkExprList]
  | e :: es, c => by
      simp only [walkExprList, List.mem_append]
      constructor
      · rintro (h | h)
        · exact ⟨e, List.mem_cons_self _ _, (mem_walkExpr_iff e c).mp h⟩
        · rcases (mem_walkExprList_iff es c).mp h with ⟨e', he', hin⟩
          exact ⟨e', List.mem_cons_of_mem _ he', hin⟩
      · rintro ⟨e', he', hin⟩
        rcases List.mem_cons.mp he' with rfl | he'
        · exact Or.inl ((mem_walkExpr_iff e' c).mpr hin)
        · exact Or.inr ((mem_walkExprList_iff es c).mpr ⟨e', he', hin⟩)

theorem mem_walkStmt_iff : ∀ (s : Stmt) (c : PyExpr), c ∈ walkStmt s ↔ ExprInStmt c s
  | .functionDef fd, c => by
      simp only [walkStmt]
      rw [mem_walkFuncDef_iff fd c]
      constructor
      · exact fun h => ExprInStmt.inNestedFunc h
      · rintro h
        cases h with
        | inNestedFunc h => exact h
  | .classDef cname cbody, c => by
      simp only [walkStmt]
      rw [mem_walkStmtList_iff cbody c]
      constructor
      · rintro ⟨s, hs, hin⟩
        exact ExprInStmt.inClass cname hs hin
      · rintro h
        cases h with
        | inClass _ hs hin => exact ⟨_, hs, hin⟩
  | .importStmt ns, c => by
      simp only [walkStmt]
      constructor
      · intro h
        simp at h
      · intro h
        cases h
  | .importFrom mo ns, c => by
      simp only [walkStmt]
      constructor
      · intro h
        simp at h
      · intro h
        cases h
  | .exprStmt e, c => by
      simp only [walkStmt]
      rw [mem_walkExpr_iff e c]
      constructor
      · exact fun h => ExprInStmt.inExprStmt h
      · rintro h
        cases h with
        | inExprStmt h => exact h
  | .ret none, c => by
      simp only [walkStmt]
      constructor
      · intro h
        simp at h
      · intro h
        cases h
  | .ret (some e), c => by
      simp only [walkStmt]
      rw [mem_walkExpr_iff e c]
      constructor
      · exact fun h => ExprInStmt.inRet h
      · rintro h
        cases h with
        | inRet h => exact h

theorem mem_walkStmtList_iff : ∀ (l : List Stmt) (c : PyExpr),
    c ∈ walkStmtList l ↔ ∃ s ∈ l, ExprInStmt c s
  | [], c => by simp [walkStmtList]
  | s :: ss, c => by
      simp only [walkStmtList, List.mem_append]
      constructor
      · rintro (h | h)
        · exact ⟨s, List.mem_cons_self _ _, (mem_walkStmt_iff s c).mp h⟩
        · rcases (mem_walkStmtList_iff ss c).mp h with ⟨s', hs', hin⟩
          exact ⟨s', List.mem_cons_of_mem _ hs', hin⟩
      · rintro ⟨s', hs', hin⟩
        rcases List.mem_cons.mp hs' with rfl | hs'
        · exact Or.inl ((mem_walkStmt_iff s' c).mpr hin)
        · exact Or.inr ((mem_walkStmtList_iff ss c).mpr ⟨s', hs', hin⟩)

theorem mem_walkFuncDef_iff : ∀ (fd : FuncDef) (c : PyExpr),
    c ∈ walkFuncDef fd ↔ ExprInFunc c fd
  | .mk n args r body, c => by
      simp only [walkFuncDef]
      rw [mem_walkStmtList_iff body c]
      constructor
      · rintro ⟨s, hs, hin⟩
        exact ExprInFunc.inBody n args r hs hin
      · rintro h
        cases h with
        | inBody _ _ _ hs hin => exact ⟨_, hs, hin⟩

end

/-- C4 — Callee-name extraction: a bare callee name is produced in exactly
two cases — a call of a simple identifier yields that identifier, and a call
of an attribute access with a simple-identifier receiver yields the
attribute name with the receiver discarded; the walked node list of a
definition contains exactly the expressions occurring anywhere in its body
(all nesting depths, including nested functions, class bodies and anonymous
callables); and a node from which no bare name is extracted contributes
nothing to the call-edge set. -/
theorem callee_name_extraction :
    (∀ (e : PyExpr) (n : String), getCallName e = some n ↔
        ((∃ args, e = PyExpr.call (.name n) args)
          ∨ (∃ recv args, e = PyExpr.call (.attr (.name recv) n) args)))
    ∧ (∀ (fd : FuncDef) (c : PyExpr), c ∈ walkFuncDef fd ↔ ExprInFunc c fd)
    ∧ (∀ (all_functions : Dict FuncInfo) (module_imports : Dict (Dict String))
        (symbol_imports : Dict (Dict (Option String × String)))
        (symbol_to_func : Dict (Finset String)) (m : String) (acc : Finset String)
        (e : PyExpr), getCallName e = none →
        collectCallStep all_functions module_imports symbol_imports symbol_to_func m acc e
          = acc) := by
  refine ⟨?_, mem_walkFuncDef_iff, ?_⟩
  · intro e n
    cases e with
    | call f args =>
      cases f with
      | name i => simp [getCallName]
      | attr v a =>
        cases v with
        | name r => simp [getCallName]
        | attr v' a' => simp [getCallName]
        | call f' args' => simp [getCallName]
        | subscript v' i' => simp [getCallName]
        | lam b => simp [getCallName]
        | const => simp [getCallName]
      | call f' args' => simp [getCallName]
      | subscript v' i' => simp [getCallName]
      | lam b => simp [getCallName]
      | const => simp [getCallName]
    | name i => simp [getCallName]
    | attr v a => simp [getCallName]
    | subscript v i => simp [getCallName]
    | lam b => simp [getCallName]
    | const => simp [getCallName]
  · intro all_functions module_imports symbol_imports symbol_to_func m acc e h
    simp [collectCallStep, h]

theorem callee_name_extraction_witness :
    getCallName (PyExpr.call (.name "g") []) = some "g"
    ∧ getCallName (PyExpr.call (.call (.name "g") []) []) = none
    ∧ collectCallStep [] [] [] [] "m" ∅ (PyExpr.call (.call (.name "g") []) []) = ∅
    ∧ (PyExpr.call (.name "g") []) ∈ walkFuncDef (FuncDef.mk "h" [] none
        [.ret (some (.lam (.call (.name "g") [])))]) := by
  refine ⟨?_, rfl, ?_, ?_⟩
  · exact (callee_name_extraction.1 _ "g").mpr (Or.inl ⟨[], rfl⟩)
  · exact callee_name_extraction.2.2 [] [] [] [] "m" ∅ _ rfl
  · exact (callee_name_extraction.2.1 _ _).mpr
      (ExprInFunc.inBody _ _ _ (List.mem_singleton.mpr rfl)
        (ExprInStmt.inRet (ExprIn.inLam (ExprIn.refl _))))

end PyMap
